import Mathlib

/-!
Shallow embedding of `src/script.js` (a browser script that loads a car
dataset, cleans it, shuffles and min-max-normalizes it, builds a two-layer
dense model and trains it for 50 epochs with batch size 32).

Numbers are modelled exactly: finite JavaScript doubles are carried as
rationals (rounding is not modelled; every claim here is about exact
algebraic structure), while the IEEE-754 special values `NaN`, `Infinity`
and `-Infinity` are explicit constructors, because the min-max
normalization can divide by zero.
-/

/-- A JavaScript field value as it occurs in the fetched dataset: a number,
`null`, or `undefined` (reading an absent property also yields `undefined`). -/
inductive JsVal where
  | num (q : ℚ)
  | null
  | undef
deriving DecidableEq

/-- JavaScript loose comparison `x != null`, which is `false` exactly for
`null` and `undefined` and `true` for every other value. -/
def jsNeNull : JsVal → Bool
  | .null => false
  | .undef => false
  | .num _ => true

/-- A raw record from the remote JSON. It is open-ended; only the two fields
the script consumes are modelled. A record lacking one of these properties is
represented by the field holding `.undef`, which is what JavaScript property
access returns for an absent key. -/
structure RawRecord where
  Miles_per_Gallon : JsVal
  Horsepower : JsVal
deriving DecidableEq

/-- The shape produced by the projection inside `getData`:
`{ mpg: car.Miles_per_Gallon, horsepower: car.Horsepower }`. -/
structure ProjectedRecord where
  mpg : JsVal
  horsepower : JsVal
deriving DecidableEq

/-- The `map` step of `getData` (src/script.js lines 13-16). -/
def projectRecord (car : RawRecord) : ProjectedRecord :=
  { mpg := car.Miles_per_Gallon, horsepower := car.Horsepower }

/-- The pure cleaning stage of `getData` (src/script.js lines 13-17): project
each raw record to `{mpg, horsepower}` and keep exactly the records where both
fields are `!= null`. The network fetch and JSON parse are external IO and are
outside this embedding. -/
def cleanData (carsData : List RawRecord) : List ProjectedRecord :=
  (carsData.map projectRecord).filter
    (fun car => jsNeNull car.mpg && jsNeNull car.horsepower)

/-- An IEEE-754 double as tf.js computes with: a finite value (carried as an
exact rational), `NaN`, `Infinity` or `-Infinity`. -/
inductive JsNum where
  | num (q : ℚ)
  | nan
  | inf
  | ninf
deriving DecidableEq

/-- IEEE-754 subtraction on the embedded doubles (elementwise `Tensor.sub`). -/
def jsSub : JsNum → JsNum → JsNum
  | .nan, _ => .nan
  | _, .nan => .nan
  | .num a, .num b => .num (a - b)
  | .num _, .inf => .ninf
  | .num _, .ninf => .inf
  | .inf, .num _ => .inf
  | .inf, .inf => .nan
  | .inf, .ninf => .inf
  | .ninf, .num _ => .ninf
  | .ninf, .inf => .ninf
  | .ninf, .ninf => .nan

/-- IEEE-754 division on the embedded doubles (elementwise `Tensor.div`).
In particular `0 / 0 = NaN` and `a / 0 = ±Infinity` for `a ≠ 0` (the zero
denominators produced by the script are `max - min`, an IEEE `+0`). -/
def jsDiv : JsNum → JsNum → JsNum
  | .nan, _ => .nan
  | _, .nan => .nan
  | .num a, .num b =>
      if b = 0 then (if a = 0 then .nan else if 0 < a then .inf else .ninf)
      else .num (a / b)
  | .num _, .inf => .num 0
  | .num _, .ninf => .num 0
  | .inf, .num b => if 0 ≤ b then .inf else .ninf
  | .inf, .inf => .nan
  | .inf, .ninf => .nan
  | .ninf, .num b => if 0 ≤ b then .ninf else .inf
  | .ninf, .inf => .nan
  | .ninf, .ninf => .nan

/-- Embeds `Tensor.max()`: full reduction of the tensor values by `max`, as
the tf.js reduction kernels compute it, with the accumulator initialized from
the first element of the buffer. On an empty tensor the kernel reads a
nonexistent first element and the result is backend-dependent (`NaN` on the
CPU backend, finite sentinels elsewhere); it is modelled as `.nan`, and
nothing below is derived from the empty-tensor value. -/
def tensorMax : List ℚ → JsNum
  | [] => .nan
  | h :: t => .num (t.foldl max h)

/-- Embeds `Tensor.min()`: full reduction of the tensor values by `min`, with
the accumulator initialized from the first element, exactly as `tensorMax`;
the empty-tensor value is backend-dependent and modelled as `.nan`. -/
def tensorMin : List ℚ → JsNum
  | [] => .nan
  | h :: t => .num (t.foldl min h)

/-- A cleaned car record as consumed by `convertToTensor`: both fields are
plain numbers (the data-model invariant established by `cleanData`). -/
structure CleanRecord where
  mpg : ℚ
  horsepower : ℚ
deriving DecidableEq

/-- Swap the entries of a list at positions `i` and `j`, reading both entries
first and then writing both, exactly as the framework array swap helper does.
Out-of-range indices leave the list unchanged. -/
def swapIdx {α : Type} (l : List α) (i j : Nat) : List α :=
  match l[i]?, l[j]? with
  | some a, some b => (l.set i b).set j a
  | _, _ => l

/-- Modelled from the spec: `tf.util.shuffle` is framework code absent from
src/. Per the spec it is a uniform Fisher-Yates shuffle: with `counter`
running down from the list length, swap position `counter - 1` with a
uniformly random position below `counter`. The stream of random draws is
passed explicitly; a draw `r` selects index `r % counter`. -/
def shuffleGo {α : Type} (l : List α) : Nat → List Nat → List α
  | 0, _ => l
  | _ + 1, [] => l
  | c + 1, r :: rs => shuffleGo (swapIdx l c (r % (c + 1))) c rs

/-- In-place Fisher-Yates shuffle of a list, driven by the explicit stream
`rand` of random draws (see `shuffleGo`). -/
def shuffle {α : Type} (rand : List Nat) (l : List α) : List α :=
  shuffleGo l l.length rand

/-- The record returned by `convertToTensor` (src/script.js lines 129-137):
normalized input and label columns plus the four scalar bounds. -/
structure TensorData where
  inputs : List JsNum
  labels : List JsNum
  inputMax : JsNum
  inputMin : JsNum
  labelMax : JsNum
  labelMin : JsNum
deriving DecidableEq

/-- Min-max normalization of one tensor column, exactly as src/script.js
lines 121-127 compute it: `t.sub(t.min()).div(t.max().sub(t.min()))`,
elementwise over the column with the reduction bounds of that same column. -/
def normalizeTensor (l : List ℚ) : List JsNum :=
  l.map (fun x => jsDiv (jsSub (.num x) (tensorMin l)) (jsSub (tensorMax l) (tensorMin l)))

/-- Embeds `convertToTensor` (src/script.js lines 90-139): shuffle the records,
extract the horsepower column as inputs and the mpg column as labels,
min-max normalize each column, and return the normalized columns together
with the four bounds. The function performs no emptiness check. -/
def convertToTensor (rand : List Nat) (data : List CleanRecord) : TensorData :=
  let shuffled := shuffle rand data
  let inputs := shuffled.map CleanRecord.horsepower
  let labels := shuffled.map CleanRecord.mpg
  { inputs := normalizeTensor inputs
    labels := normalizeTensor labels
    inputMax := tensorMax inputs
    inputMin := tensorMin inputs
    labelMax := tensorMax labels
    labelMin := tensorMin labels }

/-- Per-feature normalization bounds (spec data model `NormalizationBounds`). -/
structure NormalizationBounds where
  min : ℚ
  max : ℚ
deriving DecidableEq

/-- Scalar min-max normalization, the elementwise operation performed by
src/script.js lines 126-127: `(value - min) / (max - min)` in IEEE arithmetic. -/
def normalizeValue (x : ℚ) (b : NormalizationBounds) : JsNum :=
  jsDiv (jsSub (.num x) (.num b.min)) (jsSub (.num b.max) (.num b.min))

/-- Modelled from the spec: denormalization is the inverse rescaling the
retained bounds exist for (spec section 4.2 step 5); it is not implemented in
src/. Per the spec it is `y * (max - min) + min`. -/
def denormalizeValue (y : ℚ) (b : NormalizationBounds) : ℚ :=
  y * (b.max - b.min) + b.min

/-- The activation nonlinearities a dense layer could be configured with.
None is configured anywhere in src/, so no semantics for them is needed. -/
inductive ActivationKind where
  | relu
  | sigmoid
  | tanh
deriving DecidableEq

/-- Configuration of one `tf.layers.dense` layer: optional explicit input
shape, number of units, whether a learnable bias is used, and an optional
activation nonlinearity (`none` means the identity / purely affine layer,
which is the tf default when no `activation` key is given). -/
structure DenseLayer where
  inputShape : Option (List Nat)
  units : Nat
  useBias : Bool
  activation : Option ActivationKind
deriving DecidableEq

/-- A `tf.sequential()` model: an ordered list of layers. -/
structure SequentialModel where
  layers : List DenseLayer
deriving DecidableEq

/-- Embeds `tf.sequential()`: the empty sequential model. -/
def sequential : SequentialModel := ⟨[]⟩

/-- Embeds `model.add(layer)`: append a layer to the sequence. -/
def addLayer (m : SequentialModel) (l : DenseLayer) : SequentialModel :=
  ⟨m.layers ++ [l]⟩

/-- Embeds `createModel` (src/script.js lines 57-75): a sequential model with one
dense layer `{ inputShape: [1], units: 1, useBias: true }` and one dense
layer `{ units: 1, useBias: true }`; neither layer is given an activation. -/
def createModel : SequentialModel :=
  addLayer (addLayer sequential ⟨some [1], 1, true, none⟩) ⟨none, 1, true, none⟩

/-- Forward computation of one scalar dense layer with weight `w` and bias
`b`: the affine map `w * x + b`, post-composed with the configured activation
when one is present. The activation semantics `applyAct` is a parameter,
since the nonlinearities live in the framework (none is used by src/). -/
def denseForward (layer : DenseLayer) (applyAct : ActivationKind → ℚ → ℚ)
    (w b x : ℚ) : ℚ :=
  match layer.activation with
  | none => w * x + b
  | some a => applyAct a (w * x + b)

/-- Forward computation of a sequential model of scalar dense layers, thread
the input through the layers paired with their `(weight, bias)` parameters. -/
def modelForward (m : SequentialModel) (applyAct : ActivationKind → ℚ → ℚ)
    (params : List (ℚ × ℚ)) (x : ℚ) : ℚ :=
  (m.layers.zip params).foldl
    (fun acc lp => denseForward lp.1 applyAct lp.2.1 lp.2.2 acc) x

/-- One per-epoch metric event `{epoch, loss, mse}` as delivered to the
`onEpochEnd` callback and recorded in the returned history. -/
structure EpochEvent where
  epoch : Nat
  loss : ℚ
  mse : ℚ
deriving DecidableEq

/-- The learnable parameters of the two-layer model of `createModel`:
weight and bias of each scalar dense layer. -/
structure ModelParams where
  w1 : ℚ
  b1 : ℚ
  w2 : ℚ
  b2 : ℚ
deriving DecidableEq

/-- Forward pass of the trained two-layer model: two affine maps composed. -/
def applyModel (p : ModelParams) (x : ℚ) : ℚ :=
  p.w2 * (p.w1 * x + p.b1) + p.b2

/-- Embeds `tf.losses.meanSquaredError`, also the `mse` metric: the mean of the
squared differences between predictions and labels. -/
def meanSquaredError (pred actual : List ℚ) : ℚ :=
  (List.zipWith (fun a b => (a - b) ^ 2) pred actual).sum / (actual.length : ℚ)

/-- Modelled from the spec: the mini-batch partitioning performed inside
`model.fit` (framework code absent from src/). The examples are split into
consecutive batches of `bs` elements; the final batch may be smaller. -/
def toBatches {α : Type} (bs : Nat) (l : List α) : List (List α) :=
  match bs, l with
  | 0, _ => []
  | _ + 1, [] => []
  | b + 1, x :: xs => ((x :: xs).take (b + 1)) :: toBatches (b + 1) (xs.drop b)
termination_by l.length
decreasing_by
  simp only [List.length_drop, List.length_cons]
  omega

/-- Modelled from the spec: the epoch loop of `model.fit` (framework code
absent from src/). Per spec section 4.4, each of the remaining `n` epochs
partitions the example pairs into mini-batches of `batchSize`, folds the
optimizer step `step` (adaptive-moment gradient descent, framework-internal,
abstracted here) over the batches, then emits one event carrying the epoch
index and the loss / mse metrics, both the mean squared error of the model
on the full dataset; the events of all epochs form the returned history. -/
def fitGo (step : ModelParams → List (ℚ × ℚ) → ModelParams)
    (inputs labels : List ℚ) (batchSize : Nat) :
    Nat → Nat → ModelParams → List EpochEvent
  | 0, _, _ => []
  | n + 1, e, p =>
    let p2 := (toBatches batchSize (inputs.zip labels)).foldl step p
    let l := meanSquaredError (inputs.map (applyModel p2)) labels
    { epoch := e, loss := l, mse := l } :: fitGo step inputs labels batchSize n (e + 1) p2

/-- Modelled from the spec: `model.fit(inputs, labels, {batchSize, epochs,
shuffle, callbacks})` runs `epochs` epochs starting from epoch index 0. -/
def fit (step : ModelParams → List (ℚ × ℚ) → ModelParams) (p0 : ModelParams)
    (inputs labels : List ℚ) (epochs batchSize : Nat) : List EpochEvent :=
  fitGo step inputs labels batchSize epochs 0 p0

/-- Embeds `trainModel` (src/script.js lines 144-179): compile the model with the
adam optimizer and mean-squared-error loss plus the `mse` metric, then fit it
with `batchSize = 32` and `epochs = 50`, returning the full history. The
optimizer is passed through as the abstract per-batch `step`. -/
def trainModel (step : ModelParams → List (ℚ × ℚ) → ModelParams)
    (p0 : ModelParams) (inputs labels : List ℚ) : List EpochEvent :=
  fit step p0 inputs labels 50 32

/-- Replacing the element at position `m` and re-consing the old element is a
permutation of consing the new element: the multiset of entries is unchanged. -/
theorem get_cons_set_perm {α : Type} (t : List α) :
    ∀ (m : Nat) (h : m < t.length) (x : α),
      (t.get ⟨m, h⟩ :: t.set m x).Perm (x :: t) := by
  induction t with
  | nil => intro m h x; simp at h
  | cons y s ih =>
    intro m h x
    cases m with
    | zero => exact List.Perm.swap x y s
    | succ m =>
      have hm : m < s.length := by simpa using h
      exact ((List.Perm.swap y (s.get ⟨m, hm⟩) (s.set m x)).trans
        ((ih m hm x).cons y)).trans (List.Perm.swap x y s)

/-- Swapping two entries of a list by a read-read-write-write sequence is a
permutation of the original list. -/
theorem set_set_perm {α : Type} (l : List α) :
    ∀ (i j : Nat) (hi : i < l.length) (hj : j < l.length),
      ((l.set i (l.get ⟨j, hj⟩)).set j (l.get ⟨i, hi⟩)).Perm l := by
  induction l with
  | nil => intro i j hi hj; simp at hi
  | cons y t ih =>
    intro i j hi hj
    cases i with
    | zero =>
      cases j with
      | zero => exact List.Perm.refl _
      | succ m =>
        have hm : m < t.length := by simpa using hj
        exact get_cons_set_perm t m hm y
    | succ n =>
      cases j with
      | zero =>
        have hn : n < t.length := by simpa using hi
        exact get_cons_set_perm t n hn y
      | succ m =>
        have hn : n < t.length := by simpa using hi
        have hm : m < t.length := by simpa using hj
        exact (ih n m hn hm).cons y

/-- Lemma: `swapIdx` permutes the list: no entry is created, lost or modified. -/
theorem swapIdx_perm {α : Type} (l : List α) (i j : Nat) : (swapIdx l i j).Perm l := by
  by_cases hi : i < l.length
  · by_cases hj : j < l.length
    · have h1 : l[i]? = some (l.get ⟨i, hi⟩) := by
        simp [List.getElem?_eq_getElem hi, List.get_eq_getElem]
      have h2 : l[j]? = some (l.get ⟨j, hj⟩) := by
        simp [List.getElem?_eq_getElem hj, List.get_eq_getElem]
      rw [swapIdx, h1, h2]
      exact set_set_perm l i j hi hj
    · have h2 : l[j]? = none := by
        rw [List.getElem?_eq_none]
        omega
      rw [swapIdx, h2]
      cases l[i]? <;> exact List.Perm.refl l
  · have h1 : l[i]? = none := by
      rw [List.getElem?_eq_none]
      omega
    rw [swapIdx, h1]

/-- Every run of the Fisher-Yates loop permutes the list. -/
theorem shuffleGo_perm {α : Type} : ∀ (c : Nat) (l : List α) (rs : List Nat),
    (shuffleGo l c rs).Perm l := by
  intro c
  induction c with
  | zero => intro l rs; exact List.Perm.refl l
  | succ c ih =>
    intro l rs
    cases rs with
    | nil => exact List.Perm.refl l
    | cons r rest => exact (ih _ rest).trans (swapIdx_perm l c (r % (c + 1)))

/-- The shuffle performed by `convertToTensor` is a permutation of its input,
for every stream of random draws. -/
theorem shuffle_perm {α : Type} (rand : List Nat) (l : List α) : (shuffle rand l).Perm l :=
  shuffleGo_perm l.length l rand

/-- Scalar maximum of a column of values, as the reduction of `Tensor.max()`
computes it on a non-empty column (`0` on the empty column, a placeholder
never used: the empty tensor reduction is backend-dependent, see `tensorMax`). -/
def qmax : List ℚ → ℚ
  | [] => 0
  | h :: t => t.foldl max h

/-- Scalar minimum of a column of values (see `qmax`). -/
def qmin : List ℚ → ℚ
  | [] => 0
  | h :: t => t.foldl min h

/-- On a non-empty column the tensor max reduction is the finite maximum. -/
theorem tensorMax_cons (h : ℚ) (t : List ℚ) : tensorMax (h :: t) = .num (qmax (h :: t)) :=
  rfl

/-- On a non-empty column the tensor min reduction is the finite minimum. -/
theorem tensorMin_cons (h : ℚ) (t : List ℚ) : tensorMin (h :: t) = .num (qmin (h :: t)) :=
  rfl

theorem le_foldl_max (t : List ℚ) : ∀ a b : ℚ, b ≤ a → b ≤ t.foldl max a := by
  induction t with
  | nil => intro a b h; simpa using h
  | cons y s ih => intro a b h; exact ih (max a y) b (le_trans h (le_max_left a y))

theorem mem_le_foldl_max (t : List ℚ) : ∀ (a x : ℚ), x ∈ t → x ≤ t.foldl max a := by
  induction t with
  | nil => intro a x h; cases h
  | cons y s ih =>
    intro a x h
    rcases List.mem_cons.mp h with rfl | h2
    · exact le_foldl_max s (max a x) x (le_max_right a x)
    · exact ih (max a y) x h2

theorem foldl_min_le (t : List ℚ) : ∀ a b : ℚ, a ≤ b → t.foldl min a ≤ b := by
  induction t with
  | nil => intro a b h; simpa using h
  | cons y s ih => intro a b h; exact ih (min a y) b (le_trans (min_le_left a y) h)

theorem foldl_min_le_mem (t : List ℚ) : ∀ (a x : ℚ), x ∈ t → t.foldl min a ≤ x := by
  induction t with
  | nil => intro a x h; cases h
  | cons y s ih =>
    intro a x h
    rcases List.mem_cons.mp h with rfl | h2
    · exact foldl_min_le s (min a x) x (min_le_right a x)
    · exact ih (min a y) x h2

/-- Every member of a column is at most the column maximum. -/
theorem mem_le_qmax (l : List ℚ) (x : ℚ) (hx : x ∈ l) : x ≤ qmax l := by
  cases l with
  | nil => cases hx
  | cons h t =>
    rcases List.mem_cons.mp hx with rfl | h2
    · exact le_foldl_max t x x le_rfl
    · exact mem_le_foldl_max t h x h2

/-- Every member of a column is at least the column minimum. -/
theorem qmin_le_mem (l : List ℚ) (x : ℚ) (hx : x ∈ l) : qmin l ≤ x := by
  cases l with
  | nil => cases hx
  | cons h t =>
    rcases List.mem_cons.mp hx with rfl | h2
    · exact foldl_min_le t x x le_rfl
    · exact foldl_min_le_mem t h x h2

/-- A column holding two distinct values has its minimum strictly below its
maximum, so the normalization denominator `max - min` is nonzero. -/
theorem qmin_lt_qmax (l : List ℚ) (x y : ℚ) (hx : x ∈ l) (hy : y ∈ l)
    (hxy : x ≠ y) : qmin l < qmax l := by
  rcases lt_or_le (qmin l) (qmax l) with h | h
  · exact h
  · have hxq : x = qmin l :=
      le_antisymm (le_trans (mem_le_qmax l x hx) h) (qmin_le_mem l x hx)
    have hyq : y = qmin l :=
      le_antisymm (le_trans (mem_le_qmax l y hy) h) (qmin_le_mem l y hy)
    exact absurd (hxq.trans hyq.symm) hxy

theorem foldl_max_const (t : List ℚ) : ∀ c : ℚ, (∀ x ∈ t, x = c) → t.foldl max c = c := by
  induction t with
  | nil => intro c _; rfl
  | cons y s ih =>
    intro c hc
    have hy : y = c := hc y (List.mem_cons_self y s)
    have : s.foldl max c = c := ih c (fun x hx => hc x (List.mem_cons_of_mem y hx))
    simpa [hy, max_self] using this

theorem foldl_min_const (t : List ℚ) : ∀ c : ℚ, (∀ x ∈ t, x = c) → t.foldl min c = c := by
  induction t with
  | nil => intro c _; rfl
  | cons y s ih =>
    intro c hc
    have hy : y = c := hc y (List.mem_cons_self y s)
    have : s.foldl min c = c := ih c (fun x hx => hc x (List.mem_cons_of_mem y hx))
    simpa [hy, min_self] using this

/-- A left fold by `max` is either its initial value or an entry of the list. -/
theorem foldl_max_mem (t : List ℚ) : ∀ a : ℚ, t.foldl max a = a ∨ t.foldl max a ∈ t := by
  induction t with
  | nil => intro a; exact Or.inl rfl
  | cons y s ih =>
    intro a
    rcases ih (max a y) with h | h
    · rcases max_choice a y with h2 | h2
      · refine Or.inl ?_
        rw [List.foldl_cons, h, h2]
      · refine Or.inr ?_
        rw [List.foldl_cons, h, h2]
        exact List.mem_cons_self y s
    · refine Or.inr ?_
      rw [List.foldl_cons]
      exact List.mem_cons_of_mem y h

/-- A left fold by `min` is either its initial value or an entry of the list. -/
theorem foldl_min_mem (t : List ℚ) : ∀ a : ℚ, t.foldl min a = a ∨ t.foldl min a ∈ t := by
  induction t with
  | nil => intro a; exact Or.inl rfl
  | cons y s ih =>
    intro a
    rcases ih (min a y) with h | h
    · rcases min_choice a y with h2 | h2
      · refine Or.inl ?_
        rw [List.foldl_cons, h, h2]
      · refine Or.inr ?_
        rw [List.foldl_cons, h, h2]
        exact List.mem_cons_self y s
    · refine Or.inr ?_
      rw [List.foldl_cons]
      exact List.mem_cons_of_mem y h

/-- The maximum of a non-empty column is attained by one of its entries. -/
theorem qmax_mem (l : List ℚ) (hne : l ≠ []) : qmax l ∈ l := by
  obtain ⟨h, t, rfl⟩ := List.exists_cons_of_ne_nil hne
  rcases foldl_max_mem t h with h2 | h2
  · show t.foldl max h ∈ h :: t
    rw [h2]
    exact List.mem_cons_self h t
  · exact List.mem_cons_of_mem h h2

/-- The minimum of a non-empty column is attained by one of its entries. -/
theorem qmin_mem (l : List ℚ) (hne : l ≠ []) : qmin l ∈ l := by
  obtain ⟨h, t, rfl⟩ := List.exists_cons_of_ne_nil hne
  rcases foldl_min_mem t h with h2 | h2
  · show t.foldl min h ∈ h :: t
    rw [h2]
    exact List.mem_cons_self h t
  · exact List.mem_cons_of_mem h h2

/-- The column maximum is invariant under permutation (non-empty columns). -/
theorem qmax_perm {l1 l2 : List ℚ} (h : l1.Perm l2) (hne : l1 ≠ []) : qmax l1 = qmax l2 := by
  have hne2 : l2 ≠ [] := fun h2 => hne (List.Perm.eq_nil (h2 ▸ h))
  exact le_antisymm (mem_le_qmax l2 _ (h.subset (qmax_mem l1 hne)))
    (mem_le_qmax l1 _ (h.symm.subset (qmax_mem l2 hne2)))

/-- The column minimum is invariant under permutation (non-empty columns). -/
theorem qmin_perm {l1 l2 : List ℚ} (h : l1.Perm l2) (hne : l1 ≠ []) : qmin l1 = qmin l2 := by
  have hne2 : l2 ≠ [] := fun h2 => hne (List.Perm.eq_nil (h2 ▸ h))
  exact le_antisymm (qmin_le_mem l1 _ (h.symm.subset (qmin_mem l2 hne2)))
    (qmin_le_mem l2 _ (h.subset (qmin_mem l1 hne)))

/-- The tensor max reduction is invariant under permutation of the column. -/
theorem tensorMax_perm {l1 l2 : List ℚ} (h : l1.Perm l2) : tensorMax l1 = tensorMax l2 := by
  cases l1 with
  | nil => rw [List.Perm.eq_nil h.symm]
  | cons a t1 =>
    have hne : (a :: t1) ≠ [] := List.cons_ne_nil a t1
    have hne2 : l2 ≠ [] := fun h2 => hne (List.Perm.eq_nil (h2 ▸ h))
    obtain ⟨b, t2, rfl⟩ := List.exists_cons_of_ne_nil hne2
    show JsNum.num (qmax (a :: t1)) = JsNum.num (qmax (b :: t2))
    rw [qmax_perm h hne]

/-- The tensor min reduction is invariant under permutation of the column. -/
theorem tensorMin_perm {l1 l2 : List ℚ} (h : l1.Perm l2) : tensorMin l1 = tensorMin l2 := by
  cases l1 with
  | nil => rw [List.Perm.eq_nil h.symm]
  | cons a t1 =>
    have hne : (a :: t1) ≠ [] := List.cons_ne_nil a t1
    have hne2 : l2 ≠ [] := fun h2 => hne (List.Perm.eq_nil (h2 ▸ h))
    obtain ⟨b, t2, rfl⟩ := List.exists_cons_of_ne_nil hne2
    show JsNum.num (qmin (a :: t1)) = JsNum.num (qmin (b :: t2))
    rw [qmin_perm h hne]

theorem convertToTensor_inputs (rand : List Nat) (data : List CleanRecord) :
    (convertToTensor rand data).inputs =
      normalizeTensor ((shuffle rand data).map CleanRecord.horsepower) := rfl

theorem convertToTensor_labels (rand : List Nat) (data : List CleanRecord) :
    (convertToTensor rand data).labels =
      normalizeTensor ((shuffle rand data).map CleanRecord.mpg) := rfl

theorem convertToTensor_inputMax (rand : List Nat) (data : List CleanRecord) :
    (convertToTensor rand data).inputMax =
      tensorMax ((shuffle rand data).map CleanRecord.horsepower) := rfl

theorem convertToTensor_inputMin (rand : List Nat) (data : List CleanRecord) :
    (convertToTensor rand data).inputMin =
      tensorMin ((shuffle rand data).map CleanRecord.horsepower) := rfl

theorem convertToTensor_labelMax (rand : List Nat) (data : List CleanRecord) :
    (convertToTensor rand data).labelMax =
      tensorMax ((shuffle rand data).map CleanRecord.mpg) := rfl

theorem convertToTensor_labelMin (rand : List Nat) (data : List CleanRecord) :
    (convertToTensor rand data).labelMin =
      tensorMin ((shuffle rand data).map CleanRecord.mpg) := rfl

/-- On a column whose minimum is strictly below its maximum, the tensor
normalization is exactly the finite formula `(x - min) / (max - min)`. -/
theorem normalizeTensor_formula (l : List ℚ) (hne : l ≠ []) (hlt : qmin l < qmax l) :
    normalizeTensor l = l.map (fun x => .num ((x - qmin l) / (qmax l - qmin l))) := by
  obtain ⟨h, t, rfl⟩ := List.exists_cons_of_ne_nil hne
  have hd : qmax (h :: t) - qmin (h :: t) ≠ 0 := sub_ne_zero_of_ne (ne_of_gt hlt)
  unfold normalizeTensor
  rw [tensorMin_cons, tensorMax_cons]
  refine List.map_congr_left ?_
  intro x _
  show jsDiv (.num (x - qmin (h :: t))) (.num (qmax (h :: t) - qmin (h :: t))) = _
  simp only [jsDiv, if_neg hd]

/-- On a column with two distinct values every normalized entry is a finite
number in the closed interval `[0, 1]`. -/
theorem normalizeTensor_unit (l : List ℚ) (hne : l ≠ []) (hlt : qmin l < qmax l) :
    ∀ v ∈ normalizeTensor l, ∃ q : ℚ, v = .num q ∧ 0 ≤ q ∧ q ≤ 1 := by
  rw [normalizeTensor_formula l hne hlt]
  intro v hv
  rcases List.mem_map.mp hv with ⟨x, hx, rfl⟩
  refine ⟨(x - qmin l) / (qmax l - qmin l), rfl, ?_, ?_⟩
  · exact div_nonneg (sub_nonneg.mpr (qmin_le_mem l x hx)) (le_of_lt (sub_pos.mpr hlt))
  · exact (div_le_one (sub_pos.mpr hlt)).mpr (sub_le_sub_right (mem_le_qmax l x hx) _)

/-- On a constant non-empty column the normalization denominator is zero and
every normalized entry is `0 / 0 = NaN`. -/
theorem normalizeTensor_const (l : List ℚ) (c : ℚ) (hne : l ≠ [])
    (hc : ∀ x ∈ l, x = c) : ∀ v ∈ normalizeTensor l, v = .nan := by
  obtain ⟨h, t, rfl⟩ := List.exists_cons_of_ne_nil hne
  have hh : h = c := hc h (List.mem_cons_self h t)
  have hmax : qmax (h :: t) = c := by
    show t.foldl max h = c
    rw [hh]
    exact foldl_max_const t c (fun x hx => hc x (List.mem_cons_of_mem h hx))
  have hmin : qmin (h :: t) = c := by
    show t.foldl min h = c
    rw [hh]
    exact foldl_min_const t c (fun x hx => hc x (List.mem_cons_of_mem h hx))
  intro v hv
  unfold normalizeTensor at hv
  rw [tensorMin_cons, tensorMax_cons, hmin, hmax] at hv
  rcases List.mem_map.mp hv with ⟨x, hx, rfl⟩
  have hx2 : x = c := hc x hx
  show jsDiv (.num (x - c)) (.num (c - c)) = .nan
  simp [jsDiv, hx2]

theorem sumsq_nonneg : ∀ (a b : List ℚ), 0 ≤ (List.zipWith (fun x y => (x - y) ^ 2) a b).sum
  | [], _ => by simp
  | _ :: _, [] => by simp
  | x :: xs, y :: ys => by
    simp only [List.zipWith_cons_cons, List.sum_cons]
    exact add_nonneg (sq_nonneg _) (sumsq_nonneg xs ys)

/-- The mean-squared-error loss is never negative. -/
theorem meanSquaredError_nonneg (pred actual : List ℚ) : 0 ≤ meanSquaredError pred actual :=
  div_nonneg (sumsq_nonneg pred actual) (Nat.cast_nonneg _)

theorem fitGo_length (step : ModelParams → List (ℚ × ℚ) → ModelParams)
    (ins lbls : List ℚ) (bs : Nat) :
    ∀ (n e : Nat) (p : ModelParams), (fitGo step ins lbls bs n e p).length = n := by
  intro n
  induction n with
  | zero => intro e p; rfl
  | succ n ih =>
    intro e p
    simp only [fitGo, List.length_cons]
    rw [ih (e + 1) _]

theorem fitGo_epochs (step : ModelParams → List (ℚ × ℚ) → ModelParams)
    (ins lbls : List ℚ) (bs : Nat) :
    ∀ (n e : Nat) (p : ModelParams),
      (fitGo step ins lbls bs n e p).map EpochEvent.epoch = List.range' e n := by
  intro n
  induction n with
  | zero => intro e p; rfl
  | succ n ih =>
    intro e p
    simp only [fitGo, List.map_cons]
    rw [ih (e + 1) _, List.range'_succ]

theorem fitGo_nonneg (step : ModelParams → List (ℚ × ℚ) → ModelParams)
    (ins lbls : List ℚ) (bs : Nat) :
    ∀ (n e : Nat) (p : ModelParams), ∀ ev ∈ fitGo step ins lbls bs n e p,
      0 ≤ ev.loss ∧ 0 ≤ ev.mse := by
  intro n
  induction n with
  | zero => intro e p ev hev; cases hev
  | succ n ih =>
    intro e p ev hev
    simp only [fitGo] at hev
    rcases List.mem_cons.mp hev with rfl | h2
    · exact ⟨meanSquaredError_nonneg _ _, meanSquaredError_nonneg _ _⟩
    · exact ih (e + 1) _ ev h2

/-- C4: the DataLoader projects each raw record to `{mpg, horsepower}` and its
output contains exactly the projected records whose two fields are non-null,
in input order (the output is a sublist of the order-preserving projection);
records with a null field are absent, and an empty input yields an empty
output rather than an error. -/
theorem c4_dataloader_filter (input : List RawRecord) :
    (cleanData input).Sublist (input.map projectRecord)
    ∧ (∀ r ∈ input, jsNeNull r.Miles_per_Gallon = true → jsNeNull r.Horsepower = true →
        projectRecord r ∈ cleanData input)
    ∧ (∀ r ∈ input, r.Miles_per_Gallon = JsVal.null ∨ r.Horsepower = JsVal.null →
        projectRecord r ∉ cleanData input)
    ∧ (∀ c ∈ cleanData input, jsNeNull c.mpg = true ∧ jsNeNull c.horsepower = true)
    ∧ cleanData [] = [] := by
  refine ⟨List.filter_sublist _, ?_, ?_, ?_, rfl⟩
  · intro r hr h1 h2
    refine List.mem_filter.mpr ⟨List.mem_map_of_mem projectRecord hr, ?_⟩
    show (jsNeNull (projectRecord r).mpg && jsNeNull (projectRecord r).horsepower) = true
    simp [projectRecord, h1, h2]
  · intro r hr hnull hmem
    have h2 := (List.mem_filter.mp hmem).2
    rcases hnull with h | h
    · simp [projectRecord, h, jsNeNull] at h2
    · simp [projectRecord, h, jsNeNull] at h2
  · intro c hc
    have h2 := (List.mem_filter.mp hc).2
    simpa [Bool.and_eq_true] using h2

/-- A small sample raw-record list exercising the kept, null-field and
absent-field cases. -/
def sampleRaw : List RawRecord :=
  [⟨.num 18, .num 130⟩, ⟨.null, .num 100⟩, ⟨.num 20, .undef⟩]

/-- Witness for C4 at a concrete input. -/
theorem c4_witness :
    (cleanData sampleRaw).Sublist (sampleRaw.map projectRecord)
    ∧ (∀ r ∈ sampleRaw, jsNeNull r.Miles_per_Gallon = true → jsNeNull r.Horsepower = true →
        projectRecord r ∈ cleanData sampleRaw)
    ∧ (∀ r ∈ sampleRaw, r.Miles_per_Gallon = JsVal.null ∨ r.Horsepower = JsVal.null →
        projectRecord r ∉ cleanData sampleRaw)
    ∧ (∀ c ∈ cleanData sampleRaw, jsNeNull c.mpg = true ∧ jsNeNull c.horsepower = true)
    ∧ cleanData [] = [] :=
  c4_dataloader_filter sampleRaw

/-- C10: the loose `!= null` retention test rejects both `null` and
`undefined` (absent) fields: every record in the output has both fields as
defined, non-null numbers, and a record with an undefined field is dropped. -/
theorem c10_loose_null_check (input : List RawRecord) :
    (∀ c ∈ cleanData input, (∃ q, c.mpg = JsVal.num q) ∧ (∃ q, c.horsepower = JsVal.num q))
    ∧ (∀ r ∈ input, r.Miles_per_Gallon = JsVal.undef ∨ r.Horsepower = JsVal.undef →
        projectRecord r ∉ cleanData input) := by
  constructor
  · intro c hc
    have h2 := (List.mem_filter.mp hc).2
    simp only [Bool.and_eq_true] at h2
    constructor
    · cases hm : c.mpg with
      | num q => exact ⟨q, rfl⟩
      | null => rw [hm] at h2; simp [jsNeNull] at h2
      | undef => rw [hm] at h2; simp [jsNeNull] at h2
    · cases hm : c.horsepower with
      | num q => exact ⟨q, rfl⟩
      | null => rw [hm] at h2; simp [jsNeNull] at h2
      | undef => rw [hm] at h2; simp [jsNeNull] at h2
  · intro r hr hundef hmem
    have h2 := (List.mem_filter.mp hmem).2
    rcases hundef with h | h
    · simp [projectRecord, h, jsNeNull] at h2
    · simp [projectRecord, h, jsNeNull] at h2

/-- Witness for C10 at a concrete input. -/
theorem c10_witness :
    (∀ c ∈ cleanData sampleRaw,
        (∃ q, c.mpg = JsVal.num q) ∧ (∃ q, c.horsepower = JsVal.num q))
    ∧ (∀ r ∈ sampleRaw, r.Miles_per_Gallon = JsVal.undef ∨ r.Horsepower = JsVal.undef →
        projectRecord r ∉ cleanData sampleRaw) :=
  c10_loose_null_check sampleRaw

/-- C5: min-max normalization is invertible. For bounds with `max > min` and
any value between them, the normalized value is a finite number and
denormalizing it returns the original value exactly. -/
theorem c5_normalization_invertible (b : NormalizationBounds) (x : ℚ)
    (hlt : b.min < b.max) (hx1 : b.min ≤ x) (hx2 : x ≤ b.max) :
    ∃ y : ℚ, normalizeValue x b = .num y ∧ denormalizeValue y b = x := by
  have hd : b.max - b.min ≠ 0 := sub_ne_zero_of_ne (ne_of_gt hlt)
  refine ⟨(x - b.min) / (b.max - b.min), ?_, ?_⟩
  · show jsDiv (.num (x - b.min)) (.num (b.max - b.min)) = _
    simp only [jsDiv, if_neg hd]
  · show (x - b.min) / (b.max - b.min) * (b.max - b.min) + b.min = x
    rw [div_mul_cancel₀ _ hd]
    ring

/-- Witness for C5 at the concrete bounds 80..130 and value 105. -/
theorem c5_witness :
    (80 : ℚ) < 130 ∧ (80 : ℚ) ≤ 105 ∧ (105 : ℚ) ≤ 130
    ∧ ∃ y : ℚ, normalizeValue 105 ⟨80, 130⟩ = .num y ∧ denormalizeValue y ⟨80, 130⟩ = 105 :=
  ⟨by norm_num, by norm_num, by norm_num,
    c5_normalization_invertible ⟨80, 130⟩ 105 (by norm_num) (by norm_num) (by norm_num)⟩

/-- C8: `createModel` builds an ordered sequence of exactly two dense layers,
the first with input shape `[1]`, both with a single output unit and a
learnable bias and no activation; consequently the forward map of the model is a
composition of two affine maps and is itself affine, whatever semantics the
framework gives the (unused) activations. -/
theorem c8_two_affine_layers :
    createModel.layers.length = 2
    ∧ createModel.layers.map DenseLayer.inputShape = [some [1], none]
    ∧ createModel.layers.map DenseLayer.units = [1, 1]
    ∧ createModel.layers.map DenseLayer.useBias = [true, true]
    ∧ createModel.layers.map DenseLayer.activation = [none, none]
    ∧ ∀ (applyAct : ActivationKind → ℚ → ℚ) (w1 b1 w2 b2 : ℚ), ∃ a c : ℚ, ∀ x : ℚ,
        modelForward createModel applyAct [(w1, b1), (w2, b2)] x = a * x + c := by
  refine ⟨rfl, rfl, rfl, rfl, rfl, ?_⟩
  intro applyAct w1 b1 w2 b2
  refine ⟨w2 * w1, w2 * b1 + b2, fun x => ?_⟩
  show w2 * (w1 * x + b1) + b2 = w2 * w1 * x + (w2 * b1 + b2)
  ring

/-- C2: the shuffle inside `convertToTensor` only permutes whole records:
the multiset of `(horsepower, mpg)` pairs is preserved (indeed the record
list itself is a permutation, so no field is mutated), and the two parallel
columns extracted afterwards stay aligned with the record pairing. -/
theorem c2_shuffle_preserves_pairing (rand : List Nat) (records : List CleanRecord) :
    ((shuffle rand records).map (fun r => (r.horsepower, r.mpg))).Perm
      (records.map (fun r => (r.horsepower, r.mpg)))
    ∧ (shuffle rand records).Perm records
    ∧ ((shuffle rand records).map CleanRecord.horsepower).zip
        ((shuffle rand records).map CleanRecord.mpg) =
      (shuffle rand records).map (fun r => (r.horsepower, r.mpg)) := by
  have h := shuffle_perm rand records
  exact ⟨h.map _, h, List.zip_map' CleanRecord.horsepower CleanRecord.mpg _⟩

/-- C6: on the concrete two-record input the bounds are horsepower 80..130
and mpg 18..24, and the normalized horsepower values are exactly the pair
`{1, 0}` as a multiset, whatever order the shuffle produced. -/
theorem c6_concrete_scenario (rand : List Nat) :
    (convertToTensor rand [⟨18, 130⟩, ⟨24, 80⟩]).inputMax = .num 130
    ∧ (convertToTensor rand [⟨18, 130⟩, ⟨24, 80⟩]).inputMin = .num 80
    ∧ (convertToTensor rand [⟨18, 130⟩, ⟨24, 80⟩]).labelMax = .num 24
    ∧ (convertToTensor rand [⟨18, 130⟩, ⟨24, 80⟩]).labelMin = .num 18
    ∧ ((convertToTensor rand [⟨18, 130⟩, ⟨24, 80⟩]).inputs : Multiset JsNum) =
        {JsNum.num 1, JsNum.num 0} := by
  have h := shuffle_perm rand ([⟨18, 130⟩, ⟨24, 80⟩] : List CleanRecord)
  have hh : ((shuffle rand [⟨18, 130⟩, ⟨24, 80⟩]).map CleanRecord.horsepower).Perm [130, 80] :=
    h.map CleanRecord.horsepower
  have hl : ((shuffle rand [⟨18, 130⟩, ⟨24, 80⟩]).map CleanRecord.mpg).Perm [18, 24] :=
    h.map CleanRecord.mpg
  refine ⟨?_, ?_, ?_, ?_, ?_⟩
  · rw [convertToTensor_inputMax, tensorMax_perm hh]; decide
  · rw [convertToTensor_inputMin, tensorMin_perm hh]; decide
  · rw [convertToTensor_labelMax, tensorMax_perm hl]; decide
  · rw [convertToTensor_labelMin, tensorMin_perm hl]; decide
  · rw [convertToTensor_inputs]
    unfold normalizeTensor
    rw [tensorMin_perm hh, tensorMax_perm hh]
    refine (Multiset.coe_eq_coe.mpr (hh.map _)).trans ?_
    have h80 : tensorMin [130, 80] = JsNum.num 80 := by decide
    have h130 : tensorMax [130, 80] = JsNum.num 130 := by decide
    rw [h80, h130]
    have he : List.map (fun x : ℚ =>
        jsDiv (jsSub (JsNum.num x) (JsNum.num 80)) (jsSub (JsNum.num 130) (JsNum.num 80)))
        [130, 80] = [JsNum.num 1, JsNum.num 0] := by
      norm_num [jsDiv, jsSub]
    rw [he]
    rfl

/-- C1: for a non-empty record list whose horsepower values are not all equal
and whose mpg values are not all equal, `convertToTensor` normalizes each
column by `(value - min) / (max - min)` with the per-feature min and max of
the full original sequence (shuffling does not change the bounds), and every
normalized input and label value is a finite number in `[0, 1]`. -/
theorem c1_normalized_unit_interval (rand : List Nat) (records : List CleanRecord)
    (hhp : ∃ r ∈ records, ∃ s ∈ records, r.horsepower ≠ s.horsepower)
    (hmpg : ∃ r ∈ records, ∃ s ∈ records, r.mpg ≠ s.mpg) :
    (convertToTensor rand records).inputs =
      (shuffle rand records).map (fun r => JsNum.num
        ((r.horsepower - qmin (records.map CleanRecord.horsepower)) /
          (qmax (records.map CleanRecord.horsepower) - qmin (records.map CleanRecord.horsepower))))
    ∧ (convertToTensor rand records).labels =
      (shuffle rand records).map (fun r => JsNum.num
        ((r.mpg - qmin (records.map CleanRecord.mpg)) /
          (qmax (records.map CleanRecord.mpg) - qmin (records.map CleanRecord.mpg))))
    ∧ (∀ v ∈ (convertToTensor rand records).inputs, ∃ q : ℚ, v = JsNum.num q ∧ 0 ≤ q ∧ q ≤ 1)
    ∧ (∀ v ∈ (convertToTensor rand records).labels, ∃ q : ℚ, v = JsNum.num q ∧ 0 ≤ q ∧ q ≤ 1) := by
  obtain ⟨r, hr, s, hs, hrs⟩ := hhp
  obtain ⟨r2, hr2, s2, hs2, hrs2⟩ := hmpg
  have h := shuffle_perm rand records
  have hrecne : records ≠ [] := List.ne_nil_of_mem hr
  have hshufne : shuffle rand records ≠ [] := fun h0 =>
    hrecne (List.Perm.eq_nil (h0 ▸ h.symm))
  have hsh : ((shuffle rand records).map CleanRecord.horsepower).Perm
      (records.map CleanRecord.horsepower) := h.map _
  have hshne : (shuffle rand records).map CleanRecord.horsepower ≠ [] := fun hm =>
    hshufne (List.map_eq_nil_iff.mp hm)
  have hlt : qmin (records.map CleanRecord.horsepower) <
      qmax (records.map CleanRecord.horsepower) :=
    qmin_lt_qmax _ r.horsepower s.horsepower (List.mem_map_of_mem _ hr)
      (List.mem_map_of_mem _ hs) (by simpa using hrs)
  have hqmin := qmin_perm hsh hshne
  have hqmax := qmax_perm hsh hshne
  have hlt2 : qmin ((shuffle rand records).map CleanRecord.horsepower) <
      qmax ((shuffle rand records).map CleanRecord.horsepower) := by
    rw [hqmin, hqmax]; exact hlt
  have hsl : ((shuffle rand records).map CleanRecord.mpg).Perm
      (records.map CleanRecord.mpg) := h.map _
  have hslne : (shuffle rand records).map CleanRecord.mpg ≠ [] := fun hm =>
    hshufne (List.map_eq_nil_iff.mp hm)
  have hltl : qmin (records.map CleanRecord.mpg) < qmax (records.map CleanRecord.mpg) :=
    qmin_lt_qmax _ r2.mpg s2.mpg (List.mem_map_of_mem _ hr2)
      (List.mem_map_of_mem _ hs2) (by simpa using hrs2)
  have hqminl := qmin_perm hsl hslne
  have hqmaxl := qmax_perm hsl hslne
  have hlt2l : qmin ((shuffle rand records).map CleanRecord.mpg) <
      qmax ((shuffle rand records).map CleanRecord.mpg) := by
    rw [hqminl, hqmaxl]; exact hltl
  refine ⟨?_, ?_, ?_, ?_⟩
  · rw [convertToTensor_inputs, normalizeTensor_formula _ hshne hlt2, hqmin, hqmax,
      List.map_map]
    rfl
  · rw [convertToTensor_labels, normalizeTensor_formula _ hslne hlt2l, hqminl, hqmaxl,
      List.map_map]
    rfl
  · rw [convertToTensor_inputs]
    exact normalizeTensor_unit _ hshne hlt2
  · rw [convertToTensor_labels]
    exact normalizeTensor_unit _ hslne hlt2l

/-- The concrete two-record dataset of the spec scenario. -/
def sampleClean : List CleanRecord := [⟨18, 130⟩, ⟨24, 80⟩]

/-- A concrete dataset whose horsepower feature is constant. -/
def sampleConst : List CleanRecord := [⟨18, 100⟩, ⟨24, 100⟩]

/-- Witness for C1 at a concrete two-record input and empty random stream. -/
theorem c1_witness :
    (∃ r ∈ sampleClean, ∃ s ∈ sampleClean, r.horsepower ≠ s.horsepower)
    ∧ (∃ r ∈ sampleClean, ∃ s ∈ sampleClean, r.mpg ≠ s.mpg)
    ∧ ((convertToTensor [] sampleClean).inputs =
        (shuffle [] sampleClean).map (fun r => JsNum.num
          ((r.horsepower - qmin (sampleClean.map CleanRecord.horsepower)) /
            (qmax (sampleClean.map CleanRecord.horsepower) -
              qmin (sampleClean.map CleanRecord.horsepower))))
      ∧ ((convertToTensor [] sampleClean).labels =
        (shuffle [] sampleClean).map (fun r => JsNum.num
          ((r.mpg - qmin (sampleClean.map CleanRecord.mpg)) /
            (qmax (sampleClean.map CleanRecord.mpg) -
              qmin (sampleClean.map CleanRecord.mpg)))))
      ∧ (∀ v ∈ (convertToTensor [] sampleClean).inputs,
          ∃ q : ℚ, v = JsNum.num q ∧ 0 ≤ q ∧ q ≤ 1)
      ∧ (∀ v ∈ (convertToTensor [] sampleClean).labels,
          ∃ q : ℚ, v = JsNum.num q ∧ 0 ≤ q ∧ q ≤ 1)) :=
  ⟨by decide, by decide,
    c1_normalized_unit_interval [] sampleClean (by decide) (by decide)⟩

/-- C3 counterexample: at the empty record list `convertToTensor` does not
fail and raises no `EmptyDatasetError`: it returns a result whose input and
label columns are both empty. (The four bound fields come from framework
reductions over an empty tensor, whose value is backend-dependent; nothing is
asserted about them.) -/
theorem c3_counterexample :
    (convertToTensor [] []).inputs = [] ∧ (convertToTensor [] []).labels = [] :=
  ⟨rfl, rfl⟩

/-- C3 amended: for every random stream, `convertToTensor` applied to the
empty record list performs no emptiness check and raises no
`EmptyDatasetError`; it returns a result whose input and label columns are
both empty. The bound fields are empty-tensor reductions, whose value is
framework-backend-dependent and not asserted. -/
theorem c3_no_empty_check (rand : List Nat) :
    (convertToTensor rand []).inputs = [] ∧ (convertToTensor rand []).labels = [] :=
  ⟨rfl, rfl⟩

/-- C9 counterexample: with a constant horsepower feature the normalization
divides zero by zero, so every normalized input is `NaN`; in particular the
output is not the explicit-policy value `0`. No explicit constant-feature
behavior is implemented. -/
theorem c9_counterexample :
    (convertToTensor [] sampleConst).inputs = [.nan, .nan]
    ∧ (convertToTensor [] sampleConst).inputs ≠ [.num 0, .num 0] := by
  have hmin : tensorMin [(100 : ℚ), 100] = JsNum.num 100 := by decide
  have hmax : tensorMax [(100 : ℚ), 100] = JsNum.num 100 := by decide
  have h : (convertToTensor [] sampleConst).inputs = [.nan, .nan] := by
    show normalizeTensor [100, 100] = [.nan, .nan]
    unfold normalizeTensor
    rw [hmin, hmax]
    norm_num [jsDiv, jsSub]
  refine ⟨h, ?_⟩
  rw [h]
  simp

/-- C9 amended: whenever the horsepower feature is constant over a non-empty
record list, the normalization denominator `max - min` is zero, and every
normalized input value is `NaN` (`0 / 0`); the NaNs propagate silently to the
output, no explicit policy being implemented. -/
theorem c9_constant_feature_nan (rand : List Nat) (records : List CleanRecord)
    (c : ℚ) (hne : records ≠ []) (hconst : ∀ r ∈ records, r.horsepower = c) :
    ∀ v ∈ (convertToTensor rand records).inputs, v = .nan := by
  have h := shuffle_perm rand records
  have hshufne : shuffle rand records ≠ [] := fun h0 =>
    hne (List.Perm.eq_nil (h0 ▸ h.symm))
  have hshne : (shuffle rand records).map CleanRecord.horsepower ≠ [] := fun hm =>
    hshufne (List.map_eq_nil_iff.mp hm)
  rw [convertToTensor_inputs]
  refine normalizeTensor_const _ c hshne ?_
  intro x hx
  rcases List.mem_map.mp hx with ⟨r, hr, rfl⟩
  exact hconst r (h.subset hr)

/-- Witness for the amended C9 at a concrete constant-horsepower input. -/
theorem c9_witness :
    sampleConst ≠ []
    ∧ (∀ r ∈ sampleConst, r.horsepower = 100)
    ∧ ∀ v ∈ (convertToTensor [] sampleConst).inputs, v = JsNum.nan :=
  ⟨by decide, by decide,
    c9_constant_feature_nan [] sampleConst 100 (by decide) (by decide)⟩

/-- C7: training on a non-empty dataset with the fixed configuration of the script
(`epochs = 50`, `batchSize = 32`) produces exactly 50 per-epoch metric
events, with strictly increasing epoch indices `0, 1, ..., 49`, each carrying
a non-negative loss and a non-negative mse, and the full history is returned
with no early stopping. -/
theorem c7_fifty_epoch_history (step : ModelParams → List (ℚ × ℚ) → ModelParams)
    (p0 : ModelParams) (inputs labels : List ℚ) (hne : inputs ≠ []) :
    (trainModel step p0 inputs labels).length = 50
    ∧ (trainModel step p0 inputs labels).map EpochEvent.epoch = List.range 50
    ∧ List.Pairwise (· < ·) ((trainModel step p0 inputs labels).map EpochEvent.epoch)
    ∧ ∀ ev ∈ trainModel step p0 inputs labels, 0 ≤ ev.loss ∧ 0 ≤ ev.mse := by
  have he : (trainModel step p0 inputs labels).map EpochEvent.epoch = List.range 50 := by
    rw [List.range_eq_range']
    exact fitGo_epochs step inputs labels 32 50 0 p0
  refine ⟨fitGo_length step inputs labels 32 50 0 p0, he, ?_,
    fitGo_nonneg step inputs labels 32 50 0 p0⟩
  rw [he]
  exact List.pairwise_lt_range 50

/-- Witness for C7 at a concrete one-example dataset and identity optimizer. -/
theorem c7_witness :
    ([1] : List ℚ) ≠ []
    ∧ ((trainModel (fun p _ => p) ⟨0, 0, 0, 0⟩ [1] [2]).length = 50
      ∧ (trainModel (fun p _ => p) ⟨0, 0, 0, 0⟩ [1] [2]).map EpochEvent.epoch = List.range 50
      ∧ List.Pairwise (· < ·)
          ((trainModel (fun p _ => p) ⟨0, 0, 0, 0⟩ [1] [2]).map EpochEvent.epoch)
      ∧ ∀ ev ∈ trainModel (fun p _ => p) ⟨0, 0, 0, 0⟩ [1] [2], 0 ≤ ev.loss ∧ 0 ≤ ev.mse) :=
  ⟨by decide, c7_fifty_epoch_history (fun p _ => p) ⟨0, 0, 0, 0⟩ [1] [2] (by decide)⟩
